import Mathlib

/-!
Verification of the byml-rust BYML codec against its specification.

This file gives a shallow embedding of the library's document model
(`src/lib.rs`), its binary writer (`src/write.rs`) and the YAML loader's
node-insertion logic (`src/yaml/parse.rs`), and proves properties of the
embedding.  Machine integers are modelled as `Nat`/`Int` with explicit
truncation where the source can overflow; `f32`/`f64` values are modelled
by their bit patterns (IEEE-754 equality is a decidable predicate on bit
patterns, so no floating-point arithmetic is needed); fallible code
returns `Except`, with errors carrying the sink state at the moment of
failure so that "nothing was written" is expressible.
-/

set_option maxHeartbeats 1600000
set_option maxRecDepth 4000

/-- Endianness marker, from `enum Endian` in src/lib.rs. -/
inductive En where
  | big
  | little
deriving DecidableEq

/-- Wire node-type tags, from `enum NodeType` in src/lib.rs. -/
inductive NodeType where
  | string
  | binary
  | array
  | hash
  | stringTable
  | bool
  | int
  | float
  | uint
  | int64
  | uint64
  | double
  | null
deriving DecidableEq

/-- Tag byte of each node type, from `impl Into<u8> for &NodeType` in src/write.rs. -/
def NodeType.toU8 : NodeType → Nat
  | .string => 0xA0
  | .binary => 0xA1
  | .array => 0xC0
  | .hash => 0xC1
  | .bool => 0xD0
  | .int => 0xD1
  | .float => 0xD2
  | .uint => 0xD3
  | .int64 => 0xD4
  | .uint64 => 0xD5
  | .double => 0xD6
  | .null => 0xFF
  | .stringTable => 0xC2

/-- The document model, from `enum Byml` in src/lib.rs.  `Float(u32, Endian)` and
`Double(u64, Endian)` keep the raw bit pattern plus the endianness they were
parsed under; `Binary` is a byte vector (each entry < 256 in well-formed data);
`Hash` is a `BTreeMap<String, Byml>`, modelled as an association list that is
key-sorted in well-formed data. -/
inductive Byml where
  | null
  | string (s : String)
  | binary (b : List Nat)
  | array (xs : List Byml)
  | hash (m : List (String × Byml))
  | bool (b : Bool)
  | int (i : Int)
  | float (bits : Nat) (e : En)
  | uint (u : Nat)
  | int64 (i : Int)
  | uint64 (u : Nat)
  | double (bits : Nat) (e : En)

/-- From `Byml::is_container` in src/lib.rs: only Hash and Array count. -/
def Byml.is_container : Byml → Bool
  | .hash _ | .array _ => true
  | _ => false

/-- From `Byml::is_value` in src/lib.rs: the four inline scalar kinds. -/
def Byml.is_value : Byml → Bool
  | .int _ | .uint _ | .float _ _ | .bool _ => true
  | _ => false

/-- From `Byml::is_string` in src/lib.rs. -/
def Byml.is_string : Byml → Bool
  | .string _ => true
  | _ => false

/-- From `Byml::is_null` in src/lib.rs. -/
def Byml.is_null : Byml → Bool
  | .null => true
  | _ => false

/-- From `Byml::get_type` in src/lib.rs. -/
def Byml.get_type : Byml → NodeType
  | .array _ => .array
  | .hash _ => .hash
  | .binary _ => .binary
  | .bool _ => .bool
  | .double _ _ => .double
  | .float _ _ => .float
  | .int _ => .int
  | .int64 _ => .int64
  | .null => .null
  | .string _ => .string
  | .uint _ => .uint
  | .uint64 _ => .uint64

/- Byte-level model of `u32::to_be_bytes` / `f32::from_be_bytes` and the
little-endian versions, used by `impl Into<f32> for &Float` and
`impl Into<f64> for &Double` in src/lib.rs. -/
def toBeBytes32 (v : Nat) : List Nat :=
  [v / 2 ^ 24 % 256, v / 2 ^ 16 % 256, v / 2 ^ 8 % 256, v % 256]

def toLeBytes32 (v : Nat) : List Nat :=
  [v % 256, v / 2 ^ 8 % 256, v / 2 ^ 16 % 256, v / 2 ^ 24 % 256]

def fromBeBytes32 : List Nat → Nat
  | [a, b, c, d] => ((a * 256 + b) * 256 + c) * 256 + d
  | _ => 0

def fromLeBytes32 : List Nat → Nat
  | [a, b, c, d] => ((d * 256 + c) * 256 + b) * 256 + a
  | _ => 0

def toBeBytes64 (v : Nat) : List Nat :=
  [v / 2 ^ 56 % 256, v / 2 ^ 48 % 256, v / 2 ^ 40 % 256, v / 2 ^ 32 % 256,
   v / 2 ^ 24 % 256, v / 2 ^ 16 % 256, v / 2 ^ 8 % 256, v % 256]

def toLeBytes64 (v : Nat) : List Nat :=
  [v % 256, v / 2 ^ 8 % 256, v / 2 ^ 16 % 256, v / 2 ^ 24 % 256,
   v / 2 ^ 32 % 256, v / 2 ^ 40 % 256, v / 2 ^ 48 % 256, v / 2 ^ 56 % 256]

def fromBeBytes64 : List Nat → Nat
  | [a, b, c, d, e, f, g, h] =>
      ((((((a * 256 + b) * 256 + c) * 256 + d) * 256 + e) * 256 + f) * 256 + g) * 256 + h
  | _ => 0

def fromLeBytes64 : List Nat → Nat
  | [a, b, c, d, e, f, g, h] =>
      ((((((h * 256 + g) * 256 + f) * 256 + e) * 256 + d) * 256 + c) * 256 + b) * 256 + a
  | _ => 0

/-- Bit pattern of the `f32` produced by `impl Into<f32> for &Float` in src/lib.rs:
the stored `u32` is serialised to bytes and reassembled as a float **in the same
byte order**, so the decoded value is determined by the bits alone. -/
def floatInto (bits : Nat) : En → Nat
  | .big => fromBeBytes32 (toBeBytes32 bits)
  | .little => fromLeBytes32 (toLeBytes32 bits)

/-- Bit pattern of the `f64` produced by `impl Into<f64> for &Double` in src/lib.rs. -/
def doubleInto (bits : Nat) : En → Nat
  | .big => fromBeBytes64 (toBeBytes64 bits)
  | .little => fromLeBytes64 (toLeBytes64 bits)

/-- NaN test on an `f32` bit pattern: exponent all ones and non-zero mantissa. -/
def f32IsNaN (b : Nat) : Bool := b / 2 ^ 23 % 2 ^ 8 == 0xFF && b % 2 ^ 23 != 0

/-- Zero test on an `f32` bit pattern: everything but the sign bit clear. -/
def f32IsZero (b : Nat) : Bool := b % 2 ^ 31 == 0

/-- IEEE-754 `==` on two `f32` bit patterns: NaN is equal to nothing, `+0.0`
equals `-0.0`, and otherwise value equality coincides with bit equality. This
models the `v1 == v2` comparison in the `Float` arm of `impl PartialEq for
Byml` in src/lib.rs. -/
def f32IeeeEq (a b : Nat) : Bool :=
  if f32IsNaN a || f32IsNaN b then false
  else if f32IsZero a && f32IsZero b then true
  else a == b

/-- NaN test on an `f64` bit pattern. -/
def f64IsNaN (b : Nat) : Bool := b / 2 ^ 52 % 2 ^ 11 == 0x7FF && b % 2 ^ 52 != 0

/-- Zero test on an `f64` bit pattern. -/
def f64IsZero (b : Nat) : Bool := b % 2 ^ 63 == 0

/-- IEEE-754 `==` on two `f64` bit patterns. -/
def f64IeeeEq (a b : Nat) : Bool :=
  if f64IsNaN a || f64IsNaN b then false
  else if f64IsZero a && f64IsZero b then true
  else a == b

mutual

/-- The document-model equality, from `impl PartialEq for Byml` in src/lib.rs:
containers compare structurally, scalars by payload, and `Float`/`Double` by
the IEEE equality of their decoded values (`as_float` / `as_double` decode via
the byte round-trip modelled by `floatInto` / `doubleInto`). -/
def bymlEq (a : Byml) (b : Byml) : Bool :=
  match a with
  | .array xs => match b with
    | .array ys => bymlListEq xs ys
    | _ => false
  | .hash m1 => match b with
    | .hash m2 => bymlHashEq m1 m2
    | _ => false
  | .binary v1 => match b with
    | .binary v2 => v1 == v2
    | _ => false
  | .bool v1 => match b with
    | .bool v2 => v1 == v2
    | _ => false
  | .double bits1 e1 => match b with
    | .double bits2 e2 => f64IeeeEq (doubleInto bits1 e1) (doubleInto bits2 e2)
    | _ => false
  | .float bits1 e1 => match b with
    | .float bits2 e2 => f32IeeeEq (floatInto bits1 e1) (floatInto bits2 e2)
    | _ => false
  | .int v1 => match b with
    | .int v2 => v1 == v2
    | _ => false
  | .int64 v1 => match b with
    | .int64 v2 => v1 == v2
    | _ => false
  | .uint v1 => match b with
    | .uint v2 => v1 == v2
    | _ => false
  | .uint64 v1 => match b with
    | .uint64 v2 => v1 == v2
    | _ => false
  | .string v1 => match b with
    | .string v2 => v1 == v2
    | _ => false
  | .null => b.is_null
termination_by structural a

/-- `Vec<Byml>` equality (element-wise, same length). -/
def bymlListEq (a : List Byml) (b : List Byml) : Bool :=
  match a, b with
  | [], [] => true
  | x :: xs, y :: ys => bymlEq x y && bymlListEq xs ys
  | _, _ => false
termination_by structural a

/-- `BTreeMap<String, Byml>` equality (pairwise keys and values, same length). -/
def bymlHashEq (a : List (String × Byml)) (b : List (String × Byml)) : Bool :=
  match a, b with
  | [], [] => true
  | (k1, v1) :: r1, (k2, v2) :: r2 => k1 == k2 && bymlEq v1 v2 && bymlHashEq r1 r2
  | _, _ => false
termination_by structural a

end

/- The writer's memoisation key, from `fn calculate_hash` in src/write.rs.
The source feeds the node into `DefaultHasher` via the derived `Hash`
implementation and uses the resulting `u64` as the key of `written_nodes`.
The data fed to the hasher is determined by the node's structure: variant,
scalar payload bits, endian tags, list lengths, string contents.  We model
the key as that input stream itself (a `List Nat`): a deterministic hasher
maps equal streams to equal keys, and distinct streams are modelled as
distinct keys (the collision-free reading the writer relies on). -/
/-- Hash-input stream of an `i32`/`i64` payload: sign flag then magnitude. -/
def intTrace (i : Int) : List Nat := [if i < 0 then 1 else 0, i.natAbs]

/-- Hash-input stream of a `String`: length-prefixed code points. -/
def strTrace (s : String) : List Nat :=
  (s.data.map Char.toNat).length :: s.data.map Char.toNat

/-- Discriminant of the `Endian` tag fed to the hasher. -/
def enTag : En → Nat
  | .big => 0
  | .little => 1

mutual

/-- Structural hash input of a node (see the comment above): the writer's
memoisation key, modelling `fn calculate_hash` in src/write.rs. -/
def calculate_hash : Byml → List Nat
  | .null => [0]
  | .string s => 1 :: strTrace s
  | .binary b => 2 :: b.length :: b
  | .array xs => 3 :: xs.length :: listTrace xs
  | .hash m => 4 :: m.length :: hashEntryTrace m
  | .bool b => [5, cond b 1 0]
  | .int i => 6 :: intTrace i
  | .float bits e => [7, bits, enTag e]
  | .uint u => [8, u]
  | .int64 i => 9 :: intTrace i
  | .uint64 u => [10, u]
  | .double bits e => [11, bits, enTag e]
termination_by structural t => t

/-- Hash input of a `Vec<Byml>` (elements in order; the length is emitted by
the parent). -/
def listTrace : List Byml → List Nat
  | [] => []
  | x :: xs => calculate_hash x ++ listTrace xs
termination_by structural l => l

/-- Hash input of a `BTreeMap<String, Byml>` (key/value pairs in order). -/
def hashEntryTrace : List (String × Byml) → List Nat
  | [] => []
  | (k, v) :: r => strTrace k ++ calculate_hash v ++ hashEntryTrace r
termination_by structural l => l

end

/- String interning, from `fn collect_strings` and `fn collect_keys` in
src/write.rs.  An `IndexSet` insert appends the string when it is new;
`par_sort` sorts the set (we model the sort with Mathlib's insertion sort;
any correct sort is extensionally the same function).  Rust sorts `String`
by the byte-lexicographic order of UTF-8, which coincides with the
code-point lexicographic order carried by Lean's `String` order, since
UTF-8 preserves code-point order. -/
/-- `IndexSet::insert`: append if not already present. -/
def setInsert (l : List String) (s : String) : List String :=
  if s ∈ l then l else l ++ [s]

/-- String comparisons, stated on the underlying character lists (Rust
compares `String` by UTF-8 bytes; byte order, code-point order and the order
of Lean's `String` all agree, see `strLe_iff`/`strLt_iff` below). -/
def strDataLe (a b : String) : Prop := a.data ≤ b.data

instance : DecidableRel strDataLe := fun a b =>
  inferInstanceAs (Decidable (a.data ≤ b.data))

/-- The `par_sort` step. -/
def sortStrings (l : List String) : List String := l.insertionSort strDataLe

mutual

/-- From `fn collect_strings` in src/write.rs: gather every `String` leaf into
an `IndexSet` (keys of hashes are *not* taken), then sort. -/
def collect_strings : Byml → List String
  | .string v => sortStrings (setInsert [] v)
  | .array v => sortStrings ((collectStringsList v).foldl setInsert [])
  | .hash m => sortStrings ((collectStringsHash m).foldl setInsert [])
  | _ => sortStrings []
termination_by structural t => t

/-- Concatenated recursive results over a `Vec<Byml>` (the `flat_map`). -/
def collectStringsList : List Byml → List String
  | [] => []
  | x :: xs => collect_strings x ++ collectStringsList xs
termination_by structural l => l

/-- Concatenated recursive results over the values of a hash. -/
def collectStringsHash : List (String × Byml) → List String
  | [] => []
  | (_, v) :: r => collect_strings v ++ collectStringsHash r
termination_by structural l => l

end

mutual

/-- From `fn collect_keys` in src/write.rs: gather the hash's own keys, then
every key of every descendant, into an `IndexSet`, then sort. -/
def collect_keys : Byml → List String
  | .hash m => sortStrings ((m.map Prod.fst ++ collectKeysHash m).foldl setInsert [])
  | .array v => sortStrings ((collectKeysList v).foldl setInsert [])
  | _ => sortStrings []
termination_by structural t => t

/-- Concatenated recursive results over a `Vec<Byml>`. -/
def collectKeysList : List Byml → List String
  | [] => []
  | x :: xs => collect_keys x ++ collectKeysList xs
termination_by structural l => l

/-- Concatenated recursive results over the values of a hash. -/
def collectKeysHash : List (String × Byml) → List String
  | [] => []
  | (_, v) :: r => collect_keys v ++ collectKeysHash r
termination_by structural l => l

end

mutual

/-- Spec-side walk: the multiset of keys appearing in any Hash node anywhere
in the tree (the claim's "set of keys", before deduplication and sorting). -/
def allKeys : Byml → List String
  | .hash m => m.map Prod.fst ++ allKeysHash m
  | .array v => allKeysList v
  | _ => []
termination_by structural t => t

def allKeysList : List Byml → List String
  | [] => []
  | x :: xs => allKeys x ++ allKeysList xs
termination_by structural l => l

def allKeysHash : List (String × Byml) → List String
  | [] => []
  | (_, v) :: r => allKeys v ++ allKeysHash r
termination_by structural l => l

end

mutual

/-- Spec-side walk: the multiset of `String` leaf values of the tree. -/
def allStrings : Byml → List String
  | .string v => [v]
  | .array v => allStringsList v
  | .hash m => allStringsHash m
  | _ => []
termination_by structural t => t

def allStringsList : List Byml → List String
  | [] => []
  | x :: xs => allStrings x ++ allStringsList xs
termination_by structural l => l

def allStringsHash : List (String × Byml) → List String
  | [] => []
  | (_, v) :: r => allStrings v ++ allStringsHash r
termination_by structural l => l

end

/- The binary writer, from src/write.rs.  The sink (`Cursor<&mut Vec<u8>>`)
is a byte buffer plus a cursor; writing past the end zero-fills the gap, as
`Cursor` does for `Vec<u8>`.  Errors carry the sink state at the moment of
failure.  Alongside the sink, every writer function returns a ghost event
list recording, for each emitted offset-node body, its start offset, the
cursor position right after the body (after the realignment its caller
performs), and for each Hash body the sequence of `key_idx` fields of its
entries: the claims about alignment and key ordering are stated over these
events. -/
/-- Writer state: the bytes written so far, the cursor, and the
`written_nodes` memo map (`IndexMap<u64, u32>`, keyed here by the modelled
hash input, see `calculate_hash`). -/
structure WS where
  buf : List Nat
  pos : Nat
  memo : List (List Nat × Nat)
deriving DecidableEq

/-- The empty sink `Cursor::new(&mut Vec::new())` with a fresh writer. -/
def ws0 : WS := ⟨[], 0, []⟩

/-- Error kinds produced inside `write_doc` (both are *InvalidRootNode* /
"not a valid offset node" messages of the stringly-typed `WriteError`). -/
inductive DocErr where
  | invalidRootNode
  | invalidOffsetNode
deriving DecidableEq

/-- Error kinds of `Byml::write_binary`. -/
inductive WErr where
  | unsupportedVersion
  | invalidRootNode
  | invalidOffsetNode
deriving DecidableEq

def DocErr.toWErr : DocErr → WErr
  | .invalidRootNode => .invalidRootNode
  | .invalidOffsetNode => .invalidOffsetNode

/-- Ghost events observed during a write (see the section comment). -/
inductive WEvent where
  | bodyStart (off : Nat)
  | bodyEnd (off : Nat)
  | hashKeys (idxs : List Nat)
deriving DecidableEq

/-- `((pos + 3) & -4)` of `BymlWriter::align_cursor`: round up to a multiple
of 4. -/
def alignPos (p : Nat) : Nat := (p + 3) / 4 * 4

/-- From `BymlWriter::align_cursor` in src/write.rs. -/
def align_cursor (st : WS) : WS := { st with pos := alignPos st.pos }

/-- Write one byte at an absolute position, zero-filling any gap beyond the
current end of the buffer (the `Cursor<&mut Vec<u8>>` behaviour). -/
def setByteZ (buf : List Nat) (p : Nat) (b : Nat) : List Nat :=
  if p < buf.length then buf.set p b
  else buf ++ List.replicate (p - buf.length) 0 ++ [b]

/-- Write a byte string at an absolute position. -/
def writeBytesAt (buf : List Nat) (p : Nat) : List Nat → List Nat
  | [] => buf
  | b :: bs => writeBytesAt (setByteZ buf p b) (p + 1) bs

/-- Write bytes at the cursor and advance it. -/
def wwrite (st : WS) (bytes : List Nat) : WS :=
  { st with buf := writeBytesAt st.buf st.pos bytes, pos := st.pos + bytes.length }

def u16Bytes : En → Nat → List Nat
  | .big, v => [v / 2 ^ 8 % 256, v % 256]
  | .little, v => [v % 256, v / 2 ^ 8 % 256]

/-- 24-bit write of `U24`, from `impl BinWrite for U24` in src/write.rs. -/
def u24Bytes : En → Nat → List Nat
  | .big, v => [v / 2 ^ 16 % 256, v / 2 ^ 8 % 256, v % 256]
  | .little, v => [v % 256, v / 2 ^ 8 % 256, v / 2 ^ 16 % 256]

def u32Bytes : En → Nat → List Nat
  | .big, v => toBeBytes32 v
  | .little, v => toLeBytes32 v

def u64Bytes : En → Nat → List Nat
  | .big, v => toBeBytes64 v
  | .little, v => toLeBytes64 v

/-- Two's-complement 32-bit write of an `i32`. -/
def i32Bytes (e : En) (i : Int) : List Nat := u32Bytes e (i % (2 ^ 32 : Int)).toNat

/-- Two's-complement 64-bit write of an `i64`. -/
def i64Bytes (e : En) (i : Int) : List Nat := u64Bytes e (i % (2 ^ 64 : Int)).toNat

/-- `IndexSet::get_index_of(..).unwrap()`: position of a string in the
interned table (table length when absent, which the writer never hits because
the tables are collected from the whole tree). -/
def get_index_of : List String → String → Nat
  | [], _ => 0
  | x :: xs, s => if x = s then 0 else get_index_of xs s + 1

/-- `IndexMap::get` on `written_nodes`. -/
def memoGet (m : List (List Nat × Nat)) (k : List Nat) : Option Nat :=
  (m.find? (fun p => p.1 == k)).map Prod.snd

/-- `IndexMap::insert` on `written_nodes`: replace in place when the key is
present, append otherwise. -/
def memoInsert (m : List (List Nat × Nat)) (k : List Nat) (v : Nat) :
    List (List Nat × Nat) :=
  if m.any (fun p => p.1 == k) then m.map (fun p => if p.1 == k then (p.1, v) else p)
  else m ++ [(k, v)]

/-- The four value-slot bytes of an inline child (`NodeValue::from` plus the
string-index patch), from src/write.rs: Bool as 0/1 `u32`, Int as `i32`, UInt
as `u32`, Float as the raw bits of the decoded `f32`, String as its index in
the value table; offset children are patched separately. -/
def inlineSlotBytes (e : En) (strings : List String) : Byml → List Nat
  | .bool b => u32Bytes e (cond b 1 0)
  | .int i => i32Bytes e i
  | .uint u => u32Bytes e u
  | .float bits en => u32Bytes e (floatInto bits en)
  | .string s => u32Bytes e (get_index_of strings s)
  | _ => u32Bytes e 0

/-- UTF-8 bytes of one code point (model of `str::as_bytes`). -/
def utf8Bytes (c : Nat) : List Nat :=
  if c < 0x80 then [c]
  else if c < 0x800 then [0xC0 + c / 64, 0x80 + c % 64]
  else if c < 0x10000 then [0xE0 + c / 4096, 0x80 + c / 64 % 64, 0x80 + c % 64]
  else [0xF0 + c / 262144, 0x80 + c / 4096 % 64, 0x80 + c / 64 % 64, 0x80 + c % 64]

/-- UTF-8 bytes of a string. -/
def strUtf8 (s : String) : List Nat := (s.data.map Char.toNat).flatMap utf8Bytes

/-- From `gen_str_offsets` inside `BymlWriter::write_string_table`: offsets of
each string relative to the table start, plus the end sentinel. -/
def gen_str_offsets_go (pos : Nat) : List String → List Nat
  | [] => [pos]
  | s :: rest => pos :: gen_str_offsets_go (alignPos (pos + (strUtf8 s).length + 1)) rest

def gen_str_offsets (x : List String) : List Nat :=
  gen_str_offsets_go (4 + (x.length + 1) * 4) x

/-- From `BymlWriter::write_string_table` in src/write.rs: tag byte, 24-bit
count, the offset table, alignment, then each NUL-terminated string written at
its recorded offset, then alignment. -/
def write_string_table (e : En) (st : WS) (strings : List String) : WS :=
  let start_pos := st.pos
  let offsets := gen_str_offsets strings
  let st := wwrite st [NodeType.stringTable.toU8]
  let st := wwrite st (u24Bytes e strings.length)
  let st := wwrite st (offsets.flatMap (u32Bytes e))
  let st := align_cursor st
  let st := (strings.zip offsets).foldl
    (fun acc p => wwrite { acc with pos := start_pos + p.2 } (strUtf8 p.1 ++ [0])) st
  align_cursor st

/-- Serialised entries of a Hash body: for each entry a 24-bit `key_idx`, the
child's tag byte, and the four slot bytes resolved by the child loop. -/
def hashEntriesBytes (e : En) (keys : List String) :
    List (String × Byml) → List (List Nat) → List Nat
  | [], _ => []
  | _, [] => []
  | (k, c) :: v, slot :: slots =>
      u24Bytes e (get_index_of keys k) ++ [c.get_type.toU8] ++ slot
        ++ hashEntriesBytes e keys v slots

mutual

/-- From `BymlWriter::write_offset_node`, `write_hash` and `write_array` in
src/write.rs.  The node's start position is remembered; the body is written
(Hash and Array reserve their header region, recurse into offset children
through the child loops, then seek back and fill the header); finally the
node is recorded in `written_nodes` under its `calculate_hash` key. -/
def write_offset_node (e : En) (keys strings : List String) (st : WS) (n : Byml) :
    Except (DocErr × WS) (WS × List WEvent) :=
  let pos := st.pos
  match n with
  | .hash v =>
    let st1 : WS := { st with pos := st.pos + (8 * v.length + 4) }
    match hashChildLoop e keys strings st1 v with
    | .error err => .error err
    | .ok ((st2, slots), evs) =>
      let end_pos := st2.pos
      let st3 : WS := { st2 with pos := pos }
      let st4 := wwrite st3 ([NodeType.hash.toU8] ++ u24Bytes e v.length
        ++ hashEntriesBytes e keys v slots)
      let st5 : WS := { st4 with
        pos := end_pos,
        memo := memoInsert st4.memo (calculate_hash (Byml.hash v)) pos }
      .ok (st5, [WEvent.bodyStart pos,
        WEvent.hashKeys (v.map (fun p => get_index_of keys p.1))] ++ evs)
  | .array v =>
    let st1 := align_cursor { st with pos := st.pos + (v.length + 4 * v.length + 4) }
    match arrayChildLoop e keys strings st1 v with
    | .error err => .error err
    | .ok ((st2, slots), evs) =>
      let end_pos := st2.pos
      let st3 : WS := { st2 with pos := pos }
      let st4 := wwrite st3 ([NodeType.array.toU8] ++ u24Bytes e v.length
        ++ v.map (fun c => c.get_type.toU8))
      let st5 := wwrite (align_cursor st4) (slots.flatMap id)
      let st6 : WS := { st5 with
        pos := end_pos,
        memo := memoInsert st5.memo (calculate_hash (Byml.array v)) pos }
      .ok (st6, WEvent.bodyStart pos :: evs)
  | .double bits en =>
    let st1 := wwrite st (u64Bytes e (doubleInto bits en))
    .ok ({ st1 with memo := memoInsert st1.memo (calculate_hash n) pos },
      [WEvent.bodyStart pos])
  | .int64 i =>
    let st1 := wwrite st (i64Bytes e i)
    .ok ({ st1 with memo := memoInsert st1.memo (calculate_hash n) pos },
      [WEvent.bodyStart pos])
  | .uint64 u =>
    let st1 := wwrite st (u64Bytes e u)
    .ok ({ st1 with memo := memoInsert st1.memo (calculate_hash n) pos },
      [WEvent.bodyStart pos])
  | .binary v =>
    let st1 := wwrite (wwrite st (u32Bytes e v.length)) v
    .ok ({ st1 with memo := memoInsert st1.memo (calculate_hash n) pos },
      [WEvent.bodyStart pos])
  | _ => .error (.invalidOffsetNode, st)
termination_by structural n

/-- The per-entry loop of `write_hash`: inline and string children resolve
their slot immediately; offset children are looked up in `written_nodes` and,
on a miss, written at the cursor and realigned. -/
def hashChildLoop (e : En) (keys strings : List String) (st : WS) :
    List (String × Byml) → Except (DocErr × WS) ((WS × List (List Nat)) × List WEvent)
  | [] => .ok ((st, []), [])
  | (_, c) :: rest =>
    if c.is_value || c.is_string then
      match hashChildLoop e keys strings st rest with
      | .error err => .error err
      | .ok ((st', slots), evs) =>
          .ok ((st', inlineSlotBytes e strings c :: slots), evs)
    else
      match memoGet st.memo (calculate_hash c) with
      | some off =>
        match hashChildLoop e keys strings st rest with
        | .error err => .error err
        | .ok ((st', slots), evs) => .ok ((st', u32Bytes e off :: slots), evs)
      | none =>
        let off := st.pos
        match write_offset_node e keys strings st c with
        | .error err => .error err
        | .ok (st1, evs1) =>
          let st2 := align_cursor st1
          match hashChildLoop e keys strings st2 rest with
          | .error err => .error err
          | .ok ((st', slots), evs2) =>
            .ok ((st', u32Bytes e off :: slots),
              (evs1 ++ [WEvent.bodyEnd st2.pos]) ++ evs2)
termination_by structural l => l

/-- The per-element loop of `write_array` (same slot resolution as the hash
loop). -/
def arrayChildLoop (e : En) (keys strings : List String) (st : WS) :
    List Byml → Except (DocErr × WS) ((WS × List (List Nat)) × List WEvent)
  | [] => .ok ((st, []), [])
  | c :: rest =>
    if c.is_value || c.is_string then
      match arrayChildLoop e keys strings st rest with
      | .error err => .error err
      | .ok ((st', slots), evs) =>
          .ok ((st', inlineSlotBytes e strings c :: slots), evs)
    else
      match memoGet st.memo (calculate_hash c) with
      | some off =>
        match arrayChildLoop e keys strings st rest with
        | .error err => .error err
        | .ok ((st', slots), evs) => .ok ((st', u32Bytes e off :: slots), evs)
      | none =>
        let off := st.pos
        match write_offset_node e keys strings st c with
        | .error err => .error err
        | .ok (st1, evs1) =>
          let st2 := align_cursor st1
          match arrayChildLoop e keys strings st2 rest with
          | .error err => .error err
          | .ok ((st', slots), evs2) =>
            .ok ((st', u32Bytes e off :: slots),
              (evs1 ++ [WEvent.bodyEnd st2.pos]) ++ evs2)
termination_by structural l => l

end

/-- The 16-byte header, from `struct Header` in src/write.rs. -/
def headerBytes (e : En) (version hashOff strOff rootOff : Nat) : List Nat :=
  (match e with
    | .big => [0x42, 0x59]
    | .little => [0x59, 0x42])
    ++ u16Bytes e version ++ u32Bytes e hashOff ++ u32Bytes e strOff ++ u32Bytes e rootOff

/-- From `BymlWriter::write_doc` in src/write.rs: reject non-container roots
(note that `is_container` is false for `Null`), reserve the header, emit the
two string tables when non-empty with realignment, emit the root node at the
recorded offset, and patch the header. -/
def write_doc (e : En) (version : Nat) (data : Byml) (st : WS) :
    Except (DocErr × WS) (WS × List WEvent) :=
  if data.is_container = false then .error (.invalidRootNode, st)
  else
    let keys := collect_keys data
    let strings := collect_strings data
    let st : WS := { st with pos := 0x10 }
    let (hashOff, st) :=
      if keys.isEmpty then ((0 : Nat), st)
      else (st.pos, align_cursor (write_string_table e st keys))
    let (strOff, st) :=
      if strings.isEmpty then ((0 : Nat), st)
      else (st.pos, align_cursor (write_string_table e st strings))
    let rootOff := st.pos
    let st : WS := { st with pos := 0 }
    let st := wwrite st (headerBytes e version hashOff strOff rootOff)
    let st : WS := { st with pos := rootOff }
    match write_offset_node e keys strings st data with
    | .error err => .error err
    | .ok (st', evs) => .ok (st', evs ++ [WEvent.bodyEnd st'.pos])

/-- From `Byml::write_binary` in src/lib.rs: check the version, accept only
Array, Hash or Null roots, and run the document writer. -/
def write_binary (data : Byml) (e : En) (version : Nat) (st : WS) :
    Except (WErr × WS) (WS × List WEvent) :=
  if version > 4 || version < 2 then .error (.unsupportedVersion, st)
  else
    match data with
    | .array _ | .hash _ | .null =>
      match write_doc e version data st with
      | .error (d, st') => .error (d.toWErr, st')
      | .ok r => .ok r
    | _ => .error (.invalidRootNode, st)

/-- From `Byml::to_binary` in src/write.rs: run the writer on a fresh buffer. -/
def to_binary (data : Byml) (e : En) (version : Nat) : Except WErr (List Nat) :=
  match write_binary data e version ws0 with
  | .error (err, _) => .error err
  | .ok (st, _) => .ok st.buf

/-- Strictly increasing adjacent naturals. -/
def natChainLt : List Nat → Bool
  | [] => true
  | [_] => true
  | a :: b :: r => decide (a < b) && natChainLt (b :: r)

/-- Strictly increasing adjacent strings (compared on their character
lists, which agrees with the `String` order, see `strLt_iff`). -/
def strChainLt : List String → Bool
  | [] => true
  | [_] => true
  | a :: b :: r => decide (a.data < b.data) && strChainLt (b :: r)

/-- Alignment check of one ghost event: body starts and (realigned) body ends
sit on multiples of 4. -/
def evAligned : WEvent → Bool
  | .bodyStart o => decide (o % 4 = 0)
  | .bodyEnd o => decide (o % 4 = 0)
  | .hashKeys _ => true

/-- Key-ordering check of one ghost event: a Hash body's `key_idx` sequence is
strictly increasing. -/
def evKeysSorted : WEvent → Bool
  | .hashKeys idxs => natChainLt idxs
  | .bodyStart _ => true
  | .bodyEnd _ => true

def evGood (ev : WEvent) : Bool := evAligned ev && evKeysSorted ev

mutual

/-- `BTreeMap` well-formedness of a document: the entry list of every Hash
node in the tree is strictly key-sorted (the invariant `BTreeMap<String,
Byml>` maintains in the source). -/
def hashesSorted : Byml → Bool
  | .hash m => strChainLt (m.map Prod.fst) && hashesSortedHash m
  | .array v => hashesSortedList v
  | _ => true
termination_by structural t => t

def hashesSortedList : List Byml → Bool
  | [] => true
  | x :: xs => hashesSorted x && hashesSortedList xs
termination_by structural l => l

def hashesSortedHash : List (String × Byml) → Bool
  | [] => true
  | (_, v) :: r => hashesSorted v && hashesSortedHash r
termination_by structural l => l

end

mutual

/-- Every key of every Hash node of the tree belongs to `keys`. -/
def keysSubB (keys : List String) : Byml → Bool
  | .hash m => (m.map Prod.fst).all (fun k => decide (k ∈ keys)) && keysSubHash keys m
  | .array v => keysSubList keys v
  | _ => true
termination_by structural t => t

def keysSubList (keys : List String) : List Byml → Bool
  | [] => true
  | x :: xs => keysSubB keys x && keysSubList keys xs
termination_by structural l => l

def keysSubHash (keys : List String) : List (String × Byml) → Bool
  | [] => true
  | (_, v) :: r => keysSubB keys v && keysSubHash keys r
termination_by structural l => l

end

/-- A sample document with nested containers, shared structure, strings and
out-of-line leaves, used by the alignment witness. -/
def alignDoc : Byml :=
  .hash [("a", .array [.int64 7, .string "x", .binary [1, 2, 3]]),
         ("b", .int 1),
         ("c", .array [.int64 7, .string "x", .binary [1, 2, 3]])]

def alignDocOut : WS × List WEvent :=
  match write_binary alignDoc .little 2 ws0 with
  | .ok r => r
  | .error _ => (ws0, [])

/-- A sample document with several multi-entry hashes, used by the key-order
witness. -/
def keyOrderDoc : Byml :=
  .array [.hash [("alpha", .int 1), ("beta", .uint 2), ("gamma", .bool true)],
          .hash [("beta", .string "s"), ("delta", .int64 9)]]

def keyOrderDocOut : WS × List WEvent :=
  match write_binary keyOrderDoc .big 3 ws0 with
  | .ok r => r
  | .error _ => (ws0, [])

/- The YAML loader's node-construction logic, from src/yaml/parse.rs.  The
forked scanner/parser that produces the event stream is not part of the four
source files; only the event consumer (`BymlLoader::on_event` and
`BymlLoader::insert_new_node`) is embedded here, and the event stream for a
concrete document is modelled from the spec (§6.2).  Stacks grow at the head
(`Vec::push`/`pop`/`last_mut` act on the head here).  `unwrap()` on an `Err`
or an `unreachable!()` is a panic, modelled as the `panicked` error. -/
/-- From `Byml::as_string` in src/lib.rs (`Result` modelled as `Option`). -/
def Byml.as_string : Byml → Option String
  | .string v => some v
  | _ => none

/-- `BTreeMap::insert`: ordered insert, replacing an existing binding.  The
map is ordered by the byte order of the keys, which agrees with the
character-list order used here. -/
def btreeInsert : List (String × Byml) → String → Byml → List (String × Byml)
  | [], k, v => [(k, v)]
  | (k2, v2) :: rest, k, v =>
    if k.data < k2.data then (k, v) :: (k2, v2) :: rest
    else if k = k2 then (k, v) :: rest
    else (k2, v2) :: btreeInsert rest k v

def digitVal (c : Char) : Option Nat :=
  if '0' ≤ c ∧ c ≤ '9' then some (c.toNat - 48) else none

def digitsToNatGo (acc : Nat) : List Char → Option Nat
  | [] => some acc
  | c :: rest =>
    match digitVal c with
    | none => none
    | some d => digitsToNatGo (acc * 10 + d) rest

/-- Decimal digit-string value ( `none` when empty or non-digit). -/
def digitsToNat (l : List Char) : Option Nat :=
  if l.isEmpty then none else digitsToNatGo 0 l

/-- Model of `str::parse::<i32>`: optional sign, decimal digits, range check. -/
def parseI32 (s : String) : Option Int :=
  match s.data with
  | '+' :: rest =>
      (digitsToNat rest).bind (fun n => if n ≤ 2 ^ 31 - 1 then some (Int.ofNat n) else none)
  | '-' :: rest =>
      (digitsToNat rest).bind (fun n => if n ≤ 2 ^ 31 then some (-(Int.ofNat n)) else none)
  | l =>
      (digitsToNat l).bind (fun n => if n ≤ 2 ^ 31 - 1 then some (Int.ofNat n) else none)

/-- A scalar tag `TokenType::Tag(handle, suffix)`. -/
inductive YTag where
  | tag (handle : String) (suffix : String)

/-- The events `BymlLoader::on_event` consumes (src/yaml/forked produces
them; `other` stands for the stream events the loader ignores). -/
inductive YEvent where
  | documentStart
  | documentEnd
  | sequenceStart (aid : Nat)
  | sequenceEnd
  | mappingStart (aid : Nat)
  | mappingEnd
  | scalar (v : String) (aid : Nat) (tag : Option YTag)
  | alias (aid : Nat)
  | other

/-- The loader state, from `struct BymlLoader` in src/yaml/parse.rs. -/
structure LoaderState where
  docs : List Byml
  doc_stack : List (Byml × Nat)
  key_stack : List String

/-- A panic (an `unwrap()` of an `Err`, or an `unreachable!()`). -/
inductive LoadPanic where
  | panicked
deriving DecidableEq

/-- From `BymlLoader::insert_new_node` in src/yaml/parse.rs.  When the parent
is a Hash and the pending key is empty, the incoming node **is** the key and
the code runs `node.0.as_string().unwrap()` — which panics whenever the key
scalar parsed to anything but a String. -/
def insert_new_node (st : LoaderState) (node : Byml × Nat) :
    Except LoadPanic LoaderState :=
  match st.doc_stack with
  | [] => .ok { st with doc_stack := [node] }
  | parent :: restStack =>
    match parent with
    | (Byml.array v, aid) =>
        .ok { st with doc_stack := (Byml.array (v ++ [node.1]), aid) :: restStack }
    | (Byml.hash h, aid) =>
        match st.key_stack with
        | [] => .error .panicked
        | cur_key :: restKeys =>
          if cur_key = "" then
            match node.1.as_string with
            | none => .error .panicked
            | some s =>
                .ok { st with key_stack := s :: restKeys }
          else
            .ok { st with
              key_stack := "" :: restKeys,
              doc_stack := (Byml.hash (btreeInsert h cur_key node.1), aid) :: restStack }
    | _ => .error .panicked

/-- The untagged-scalar disambiguation and tag dispatch of the `Scalar` arm
of `BymlLoader::on_event`.  The tagged branches and the `f32` fallback call
collaborator code (`parse::<f32>`, base64, ...) that the claims never reach,
so they are parameters here: every theorem below holds for any behaviour of
`tagged` and `pf32`. -/
def scalarNode (tagged : String → String → String → Byml)
    (pf32 : String → Option (Nat × En)) (v : String) (tag : Option YTag) : Byml :=
  match tag with
  | some (YTag.tag handle suffix) =>
      if handle = "!!" then tagged handle suffix v
      else if handle = "!" then tagged handle suffix v
      else Byml.string v
  | none =>
      match parseI32 v with
      | some i => Byml.int i
      | none =>
        match pf32 v with
        | some (bits, en) => Byml.float bits en
        | none =>
          if v = "true" then Byml.bool true
          else if v = "false" then Byml.bool false
          else Byml.string v

/-- From `BymlLoader::on_event` in src/yaml/parse.rs. -/
def on_event (tagged : String → String → String → Byml)
    (pf32 : String → Option (Nat × En)) (st : LoaderState) (ev : YEvent) :
    Except LoadPanic LoaderState :=
  match ev with
  | .documentStart => .ok st
  | .documentEnd =>
    match st.doc_stack with
    | [] => .ok { st with docs := st.docs ++ [Byml.null] }
    | [d] => .ok { st with docs := st.docs ++ [d.1], doc_stack := [] }
    | _ => .error .panicked
  | .sequenceStart aid =>
      .ok { st with doc_stack := (Byml.array [], aid) :: st.doc_stack }
  | .sequenceEnd =>
    match st.doc_stack with
    | [] => .error .panicked
    | node :: rest => insert_new_node { st with doc_stack := rest } node
  | .mappingStart aid =>
      .ok { st with
        doc_stack := (Byml.hash [], aid) :: st.doc_stack,
        key_stack := "" :: st.key_stack }
  | .mappingEnd =>
    match st.key_stack, st.doc_stack with
    | _ :: restK, node :: rest =>
        insert_new_node { st with key_stack := restK, doc_stack := rest } node
    | _, _ => .error .panicked
  | .scalar v aid tag => insert_new_node st (scalarNode tagged pf32 v tag, aid)
  | .alias _ => .ok st
  | .other => .ok st

/-- The event loop of `load_from_str` (the parser feeds every event to
`on_event`; a panic aborts the run). -/
def runEvents (tagged : String → String → String → Byml)
    (pf32 : String → Option (Nat × En)) :
    LoaderState → List YEvent → Except LoadPanic LoaderState
  | st, [] => .ok st
  | st, ev :: rest =>
    match on_event tagged pf32 st ev with
    | .error p => .error p
    | .ok st' => runEvents tagged pf32 st' rest

/-- Modelled from the spec: the event stream the (absent) forked YAML
scanner/parser produces for the document `"0: 1"` — a mapping whose key and
value are the plain untagged scalars `0` and `1` (§6.2). -/
def intKeyEvents : List YEvent :=
  [.other, .documentStart, .mappingStart 0, .scalar "0" 0 none,
   .scalar "1" 0 none, .mappingEnd, .documentEnd, .other]

example : bymlEq (.float 0x3F800000 .big) (.float 0x3F800000 .little) = true := by decide

example : bymlEq (.float 0x7FC00000 .big) (.float 0x7FC00000 .big) = false := by decide

example : calculate_hash (.hash [("a", .int 3)]) = [4, 1, 1, 97, 6, 0, 3] := rfl

theorem mem_setInsert (l : List String) (s x : String) :
    x ∈ setInsert l s ↔ x ∈ l ∨ x = s := by
  unfold setInsert
  split
  · next h => simp only [iff_def]; exact ⟨Or.inl, fun hx => hx.elim id (fun e => e ▸ h)⟩
  · simp

theorem mem_foldl_setInsert (l : List String) :
    ∀ init x, x ∈ l.foldl setInsert init ↔ x ∈ init ∨ x ∈ l := by
  induction l with
  | nil => simp
  | cons a l ih =>
      intro init x
      simp only [List.foldl_cons, ih, mem_setInsert, List.mem_cons]
      tauto

theorem nodup_setInsert (l : List String) (s : String) (h : l.Nodup) :
    (setInsert l s).Nodup := by
  unfold setInsert
  split
  · exact h
  · next hs => simpa [List.nodup_append] using ⟨h, fun e => hs e⟩

theorem nodup_foldl_setInsert (l : List String) :
    ∀ init, init.Nodup → (l.foldl setInsert init).Nodup := by
  induction l with
  | nil => intro init h; simpa using h
  | cons a l ih =>
      intro init h
      exact ih _ (nodup_setInsert _ _ h)

theorem sortStrings_perm (l : List String) : List.Perm (sortStrings l) l :=
  List.perm_insertionSort _ l

theorem strLe_iff (a b : String) : strDataLe a b ↔ a ≤ b :=
  (String.le_iff_toList_le).symm

theorem strLt_iff (a b : String) : a.data < b.data ↔ a < b :=
  (String.lt_iff_toList_lt).symm

theorem sortStrings_sorted (l : List String) : (sortStrings l).Sorted (· ≤ ·) := by
  haveI : IsTotal String strDataLe := ⟨fun a b => by
    rcases le_total a b with h | h
    · exact Or.inl ((strLe_iff a b).2 h)
    · exact Or.inr ((strLe_iff b a).2 h)⟩
  haveI : IsTrans String strDataLe := ⟨fun a b c h1 h2 =>
    (strLe_iff a c).2 (((strLe_iff a b).1 h1).trans ((strLe_iff b c).1 h2))⟩
  exact (List.sorted_insertionSort strDataLe l).imp
    (fun {a b} hab => (strLe_iff a b).1 hab)

theorem mem_sortStrings (l : List String) (x : String) :
    x ∈ sortStrings l ↔ x ∈ l :=
  (sortStrings_perm l).mem_iff

theorem nodup_sortStrings (l : List String) (h : l.Nodup) :
    (sortStrings l).Nodup :=
  (sortStrings_perm l).nodup_iff.mpr h

theorem sortStrings_eq_of_mem_iff (l₁ l₂ : List String)
    (h₁ : l₁.Nodup) (h₂ : l₂.Nodup) (h : ∀ x, x ∈ l₁ ↔ x ∈ l₂) :
    sortStrings l₁ = sortStrings l₂ := by
  apply List.eq_of_perm_of_sorted _ (sortStrings_sorted l₁) (sortStrings_sorted l₂)
  exact ((sortStrings_perm l₁).trans
    ((List.perm_ext_iff_of_nodup h₁ h₂).2 h)).trans (sortStrings_perm l₂).symm

theorem mem_collect_keys (t : Byml) : ∀ x, x ∈ collect_keys t ↔ x ∈ allKeys t := by
  apply collect_keys.induct
    (motive_1 := fun t => ∀ x, x ∈ collect_keys t ↔ x ∈ allKeys t)
    (motive_2 := fun l => ∀ x, x ∈ collectKeysList l ↔ x ∈ allKeysList l)
    (motive_3 := fun m => ∀ x, x ∈ collectKeysHash m ↔ x ∈ allKeysHash m)
  · intro m ih x
    simp only [collect_keys, allKeys, mem_sortStrings, mem_foldl_setInsert,
      List.mem_append, ih x]
    tauto
  · intro v ih x
    simp only [collect_keys, allKeys, mem_sortStrings, mem_foldl_setInsert, ih x]
    tauto
  · intro t hh ha x
    cases t with
    | hash m => exact (hh m rfl).elim
    | array v => exact (ha v rfl).elim
    | _ => simp [collect_keys, allKeys, sortStrings]
  · intro x; simp [collectKeysList, allKeysList]
  · intro y ys ih1 ih2 x
    simp [collectKeysList, allKeysList, ih1 x, ih2 x]
  · intro x; simp [collectKeysHash, allKeysHash]
  · intro k v r ih1 ih2 x
    simp [collectKeysHash, allKeysHash, ih1 x, ih2 x]

theorem nodup_collect_keys (t : Byml) : (collect_keys t).Nodup := by
  cases t <;>
    first
      | exact nodup_sortStrings _ (nodup_foldl_setInsert _ _ List.nodup_nil)
      | exact nodup_sortStrings _ List.nodup_nil

theorem sorted_collect_keys (t : Byml) : (collect_keys t).Sorted (· ≤ ·) := by
  cases t <;> exact sortStrings_sorted _

theorem mem_collect_strings (t : Byml) :
    ∀ x, x ∈ collect_strings t ↔ x ∈ allStrings t := by
  apply collect_strings.induct
    (motive_1 := fun t => ∀ x, x ∈ collect_strings t ↔ x ∈ allStrings t)
    (motive_2 := fun m => ∀ x, x ∈ collectStringsHash m ↔ x ∈ allStringsHash m)
    (motive_3 := fun l => ∀ x, x ∈ collectStringsList l ↔ x ∈ allStringsList l)
  · intro v x
    simp [collect_strings, allStrings, mem_sortStrings, mem_setInsert, eq_comm]
  · intro v ih x
    simp only [collect_strings, allStrings, mem_sortStrings, mem_foldl_setInsert, ih x]
    tauto
  · intro m ih x
    simp only [collect_strings, allStrings, mem_sortStrings, mem_foldl_setInsert, ih x]
    tauto
  · intro t hs ha hh x
    cases t with
    | string s => exact (hs s rfl).elim
    | array v => exact (ha v rfl).elim
    | hash m => exact (hh m rfl).elim
    | _ => simp [collect_strings, allStrings, sortStrings]
  · intro x; simp [collectStringsList, allStringsList]
  · intro y ys ih1 ih2 x
    simp [collectStringsList, allStringsList, ih1 x, ih2 x]
  · intro x; simp [collectStringsHash, allStringsHash]
  · intro k v r ih1 ih2 x
    simp [collectStringsHash, allStringsHash, ih1 x, ih2 x]

theorem nodup_collect_strings (t : Byml) : (collect_strings t).Nodup := by
  cases t <;>
    first
      | exact nodup_sortStrings _ (nodup_foldl_setInsert _ _ List.nodup_nil)
      | exact nodup_sortStrings _ (nodup_setInsert _ _ List.nodup_nil)
      | exact nodup_sortStrings _ List.nodup_nil

theorem sorted_collect_strings (t : Byml) : (collect_strings t).Sorted (· ≤ ·) := by
  cases t <;> exact sortStrings_sorted _

/-- C6: the writer's key table is exactly the deduplicated, lexicographically
sorted list of all keys of all Hash nodes of the tree, its value table exactly
the deduplicated sorted list of all String leaves, and both tables are `def`s
of the tree alone, hence pure functions of it.  (Rust sorts by UTF-8 byte
order, which agrees with the code-point order used here.) -/
theorem string_tables_are_sorted_dedup_sets (t : Byml) :
    collect_keys t = sortStrings (allKeys t).dedup
    ∧ collect_strings t = sortStrings (allStrings t).dedup
    ∧ (collect_keys t).Sorted (· < ·)
    ∧ (collect_strings t).Sorted (· < ·) := by
  refine ⟨?_, ?_, ?_, ?_⟩
  · apply List.eq_of_perm_of_sorted _ (sorted_collect_keys t) (sortStrings_sorted _)
    apply (List.perm_ext_iff_of_nodup (nodup_collect_keys t)
      (nodup_sortStrings _ (List.nodup_dedup _))).2
    intro x
    rw [mem_collect_keys t x, mem_sortStrings, List.mem_dedup]
  · apply List.eq_of_perm_of_sorted _ (sorted_collect_strings t) (sortStrings_sorted _)
    apply (List.perm_ext_iff_of_nodup (nodup_collect_strings t)
      (nodup_sortStrings _ (List.nodup_dedup _))).2
    intro x
    rw [mem_collect_strings t x, mem_sortStrings, List.mem_dedup]
  · exact (sorted_collect_keys t).lt_of_le (nodup_collect_keys t)
  · exact (sorted_collect_strings t).lt_of_le (nodup_collect_strings t)

example : to_binary (.hash [("a", .int 1)]) .little 2 =
    .ok [0x59, 0x42, 2, 0, 0x10, 0, 0, 0, 0, 0, 0, 0, 0x20, 0, 0, 0,
         0xC2, 1, 0, 0, 12, 0, 0, 0, 16, 0, 0, 0, 97, 0, 0, 0,
         0xC1, 1, 0, 0, 0, 0, 0, 0xD1, 1, 0, 0, 0] := rfl

/-- C1 (code bug): encoding the document `Byml::Null` fails instead of
producing the 16-byte header-only file.  `Byml::write_binary` admits `Null`
roots (its match arm and doc comment both allow them), but `write_doc`
immediately rejects any root for which `is_container()` is false — and
`is_container` is false for `Null` — so the writer returns the root-node
error with nothing written to the sink. -/
theorem null_root_is_rejected :
    write_binary Byml.null En.big 2 ws0 = .error (.invalidRootNode, ws0) := rfl

/-- C7: `write_binary` returns the *UnsupportedVersion* error, with the sink
untouched, exactly when the requested version lies outside {2, 3, 4}; for a
supported version no run ever produces that error kind. -/
theorem version_check (t : Byml) (e : En) (v : Nat) (st : WS) :
    (¬(2 ≤ v ∧ v ≤ 4) → write_binary t e v st = .error (.unsupportedVersion, st))
    ∧ ((2 ≤ v ∧ v ≤ 4) →
        ∀ st', write_binary t e v st ≠ .error (.unsupportedVersion, st')) := by
  constructor
  · intro h
    have hv : (v > 4 || v < 2) = true := by
      simp only [Bool.or_eq_true, decide_eq_true_eq]
      omega
    simp [write_binary, hv]
  · intro h st'
    have hv : (v > 4 || v < 2) = false := by
      simp only [Bool.or_eq_false_iff, decide_eq_false_iff_not]
      omega
    cases t
    case array xs =>
      cases hdoc : write_doc e v (Byml.array xs) st with
      | error err =>
          obtain ⟨d, std⟩ := err
          cases d <;> simp [write_binary, hv, hdoc, DocErr.toWErr]
      | ok r => simp [write_binary, hv, hdoc]
    case hash m =>
      cases hdoc : write_doc e v (Byml.hash m) st with
      | error err =>
          obtain ⟨d, std⟩ := err
          cases d <;> simp [write_binary, hv, hdoc, DocErr.toWErr]
      | ok r => simp [write_binary, hv, hdoc]
    case null =>
      cases hdoc : write_doc e v Byml.null st with
      | error err =>
          obtain ⟨d, std⟩ := err
          cases d <;> simp [write_binary, hv, hdoc, DocErr.toWErr]
      | ok r => simp [write_binary, hv, hdoc]
    all_goals simp [write_binary, hv]

/-- Witness for `version_check` at version 7 (unsupported) on an empty-hash
document. -/
theorem version_check_witness :
    write_binary (Byml.hash []) En.big 7 ws0
      = .error (.unsupportedVersion, ws0) :=
  (version_check (Byml.hash []) En.big 7 ws0).1 (by decide)

/-- C8: for a root that is a scalar or Binary node (anything that is neither a
container nor `Null`), `write_binary` with a supported version returns the
*InvalidRootNode* error and leaves the sink untouched. -/
theorem root_type_check (t : Byml) (e : En) (v : Nat) (st : WS)
    (h2 : 2 ≤ v) (h4 : v ≤ 4)
    (hc : t.is_container = false) (hn : t.is_null = false) :
    write_binary t e v st = .error (.invalidRootNode, st) := by
  have hv : (v > 4 || v < 2) = false := by
    simp only [Bool.or_eq_false_iff, decide_eq_false_iff_not]
    omega
  cases t
  case null => exact absurd hn (by simp [Byml.is_null])
  case array xs => exact absurd hc (by simp [Byml.is_container])
  case hash m => exact absurd hc (by simp [Byml.is_container])
  all_goals simp [write_binary, hv]

/-- Witness for `root_type_check`: an `Int` root at version 2, big-endian. -/
theorem root_type_check_witness :
    write_binary (Byml.int 5) En.big 2 ws0 = .error (.invalidRootNode, ws0) :=
  root_type_check (Byml.int 5) En.big 2 ws0 (by decide) (by decide) (by decide) (by decide)

theorem alignPos_mod (p : Nat) : alignPos p % 4 = 0 := by
  unfold alignPos
  omega

/-- On a strictly sorted table, `get_index_of` is strictly monotone at members
(the right-hand string need not even be present). -/
theorem get_index_of_lt (keys : List String) (hs : keys.Sorted (· < ·))
    (a b : String) (ha : a ∈ keys) (hab : a < b) :
    get_index_of keys a < get_index_of keys b := by
  induction keys with
  | nil => cases ha
  | cons x xs ih =>
    simp only [get_index_of]
    by_cases hxa : x = a
    · subst hxa
      have hxb : ¬x = b := fun h => absurd hab (by simp [h])
      rw [if_pos rfl, if_neg hxb]
      omega
    · rw [if_neg hxa]
      have ha' : a ∈ xs := by
        rcases List.mem_cons.mp ha with h | h
        · exact absurd h.symm hxa
        · exact h
      have hxlt : x < a := (List.sorted_cons.mp hs).1 a ha'
      have hxb : ¬x = b := by
        intro h
        subst h
        exact absurd (hxlt.trans hab) (lt_irrefl x)
      rw [if_neg hxb]
      have := ih (List.sorted_cons.mp hs).2 ha'
      omega

/-- Mapping a strictly increasing member list through `get_index_of` on a
strictly sorted table yields strictly increasing indices. -/
theorem natChainLt_map_get_index_of (keys : List String) (hs : keys.Sorted (· < ·)) :
    ∀ ks : List String, strChainLt ks = true →
      ks.all (fun k => decide (k ∈ keys)) = true →
      natChainLt (ks.map (get_index_of keys)) = true := by
  intro ks
  induction ks with
  | nil => intro _ _; rfl
  | cons a l ih =>
    cases l with
    | nil => intro _ _; rfl
    | cons b r =>
      intro hchain hmem
      simp only [strChainLt, Bool.and_eq_true, decide_eq_true_eq] at hchain
      simp only [List.all_cons, Bool.and_eq_true, decide_eq_true_eq] at hmem
      simp only [List.map, natChainLt, Bool.and_eq_true, decide_eq_true_eq]
      refine ⟨get_index_of_lt keys hs a b hmem.1 ((strLt_iff a b).1 hchain.1), ?_⟩
      have := ih hchain.2 (by
        simp only [List.all_cons, Bool.and_eq_true, decide_eq_true_eq]
        exact hmem.2)
      simpa [List.map] using this

theorem keysSubB_of_allKeys (keys : List String) :
    ∀ t : Byml, (∀ x, x ∈ allKeys t → x ∈ keys) → keysSubB keys t = true := by
  apply keysSubB.induct keys
    (motive_1 := fun t => (∀ x, x ∈ allKeys t → x ∈ keys) → keysSubB keys t = true)
    (motive_2 := fun l => (∀ x, x ∈ allKeysList l → x ∈ keys) → keysSubList keys l = true)
    (motive_3 := fun m => (∀ x, x ∈ allKeysHash m → x ∈ keys) → keysSubHash keys m = true)
  · intro m ih h
    simp only [keysSubB, Bool.and_eq_true]
    constructor
    · simp only [List.all_eq_true, decide_eq_true_eq]
      intro k hk
      exact h k (by simp [allKeys, hk])
    · exact ih (fun x hx => h x (by simp [allKeys, hx]))
  · intro v ih h
    simp only [keysSubB]
    exact ih (fun x hx => h x (by simpa [allKeys] using hx))
  · intro t hh ha _
    cases t with
    | hash m => exact (hh m rfl).elim
    | array v => exact (ha v rfl).elim
    | _ => rfl
  · intro _; rfl
  · intro x xs ih1 ih2 h
    simp only [keysSubList, Bool.and_eq_true]
    exact ⟨ih1 (fun y hy => h y (by simp [allKeysList, hy])),
      ih2 (fun y hy => h y (by simp [allKeysList, hy]))⟩
  · intro _; rfl
  · intro k v r ih1 ih2 h
    simp only [keysSubHash, Bool.and_eq_true]
    exact ⟨ih1 (fun y hy => h y (by simp [allKeysHash, hy])),
      ih2 (fun y hy => h y (by simp [allKeysHash, hy]))⟩

/-- Combined writer invariant: starting from a 4-aligned cursor, on any
well-formed input every ghost event of a successful `write_offset_node` run
is good (bodies start 4-aligned, realigned ends are 4-aligned, Hash `key_idx`
sequences strictly increase), and container bodies leave the cursor
4-aligned. -/
theorem write_offset_node_good (e : En) (keys strings : List String)
    (hkeys : keys.Sorted (· < ·)) :
    ∀ (st : WS) (n : Byml), ∀ st' evs,
      write_offset_node e keys strings st n = .ok (st', evs) →
      st.pos % 4 = 0 → hashesSorted n = true → keysSubB keys n = true →
      (evs.all evGood = true ∧ (n.is_container = true → st'.pos % 4 = 0)) := by
  apply write_offset_node.induct e keys strings
    (motive_1 := fun st n => ∀ st' evs,
      write_offset_node e keys strings st n = .ok (st', evs) →
      st.pos % 4 = 0 → hashesSorted n = true → keysSubB keys n = true →
      (evs.all evGood = true ∧ (n.is_container = true → st'.pos % 4 = 0)))
    (motive_2 := fun st l => ∀ out slots evs,
      arrayChildLoop e keys strings st l = .ok ((out, slots), evs) →
      st.pos % 4 = 0 → hashesSortedList l = true → keysSubList keys l = true →
      (evs.all evGood = true ∧ out.pos % 4 = 0))
    (motive_3 := fun st l => ∀ out slots evs,
      hashChildLoop e keys strings st l = .ok ((out, slots), evs) →
      st.pos % 4 = 0 → hashesSortedHash l = true → keysSubHash keys l = true →
      (evs.all evGood = true ∧ out.pos % 4 = 0))
  -- hash branch, child loop fails
  · intro st v st1 err hloop ih st' evs hw hpos hsort hsub
    have hst1 : st1 = { st with pos := st.pos + (8 * v.length + 4) } := rfl
    rw [hst1] at hloop
    simp only [write_offset_node] at hw
    rw [hloop] at hw
    simp at hw
  -- hash branch, child loop succeeds
  · intro st v st1 st2 slots evs0 hloop ih st' evs hw hpos hsort hsub
    have hst1 : st1 = { st with pos := st.pos + (8 * v.length + 4) } := rfl
    rw [hst1] at hloop ih
    simp only [write_offset_node] at hw
    rw [hloop] at hw
    simp only [Except.ok.injEq, Prod.mk.injEq] at hw
    obtain ⟨hst', hevs⟩ := hw
    subst hevs
    simp only [hashesSorted, Bool.and_eq_true] at hsort
    simp only [keysSubB, Bool.and_eq_true] at hsub
    have ihres := ih st2 slots evs0 hloop (by simp; omega) hsort.2 hsub.2
    constructor
    · simp only [List.all_append, List.all_cons, List.all_nil, Bool.and_eq_true]
      refine ⟨⟨?_, ?_, trivial⟩, ihres.1⟩
      · simp [evGood, evAligned, evKeysSorted, hpos]
      · simp only [evGood, evAligned, evKeysSorted, Bool.and_eq_true, Bool.true_and]
        have hmap := natChainLt_map_get_index_of keys hkeys (v.map Prod.fst) hsort.1 hsub.1
        simpa [List.map_map, Function.comp] using hmap
    · intro _
      rw [← hst']
      simpa using ihres.2
  -- array branch, child loop fails
  · intro st v st1 err hloop ih st' evs hw hpos hsort hsub
    have hst1 : st1 = align_cursor { st with pos := st.pos + (v.length + 4 * v.length + 4) } := rfl
    rw [hst1] at hloop
    simp only [write_offset_node] at hw
    rw [hloop] at hw
    simp at hw
  -- array branch, child loop succeeds
  · intro st v st1 st2 slots evs0 hloop ih st' evs hw hpos hsort hsub
    have hst1 : st1 = align_cursor { st with pos := st.pos + (v.length + 4 * v.length + 4) } := rfl
    rw [hst1] at hloop ih
    simp only [write_offset_node] at hw
    rw [hloop] at hw
    simp only [Except.ok.injEq, Prod.mk.injEq] at hw
    obtain ⟨hst', hevs⟩ := hw
    subst hevs
    simp only [hashesSorted] at hsort
    simp only [keysSubB] at hsub
    have ihres := ih st2 slots evs0 hloop (by simp [align_cursor, alignPos_mod]) hsort hsub
    constructor
    · simp only [List.all_cons, Bool.and_eq_true]
      exact ⟨by simp [evGood, evAligned, evKeysSorted, hpos], ihres.1⟩
    · intro _
      rw [← hst']
      simpa using ihres.2
  -- double
  · intro st bits en st' evs hw hpos hsort hsub
    simp only [write_offset_node, Except.ok.injEq, Prod.mk.injEq] at hw
    obtain ⟨hst', hevs⟩ := hw
    subst hevs
    refine ⟨by simp [evGood, evAligned, evKeysSorted, hpos], ?_⟩
    intro hc
    simp [Byml.is_container] at hc
  -- int64
  · intro st i st' evs hw hpos hsort hsub
    simp only [write_offset_node, Except.ok.injEq, Prod.mk.injEq] at hw
    obtain ⟨hst', hevs⟩ := hw
    subst hevs
    refine ⟨by simp [evGood, evAligned, evKeysSorted, hpos], ?_⟩
    intro hc
    simp [Byml.is_container] at hc
  -- uint64
  · intro st u st' evs hw hpos hsort hsub
    simp only [write_offset_node, Except.ok.injEq, Prod.mk.injEq] at hw
    obtain ⟨hst', hevs⟩ := hw
    subst hevs
    refine ⟨by simp [evGood, evAligned, evKeysSorted, hpos], ?_⟩
    intro hc
    simp [Byml.is_container] at hc
  -- binary
  · intro st v st' evs hw hpos hsort hsub
    simp only [write_offset_node, Except.ok.injEq, Prod.mk.injEq] at hw
    obtain ⟨hst', hevs⟩ := hw
    subst hevs
    refine ⟨by simp [evGood, evAligned, evKeysSorted, hpos], ?_⟩
    intro hc
    simp [Byml.is_container] at hc
  -- default: not an offset node
  · intro t st h1 h2 h3 h4 h5 h6 st' evs hw hpos hsort hsub
    cases t with
    | hash m => exact (h1 m rfl).elim
    | array v => exact (h2 v rfl).elim
    | double bits en => exact (h3 bits en rfl).elim
    | int64 i => exact (h4 i rfl).elim
    | uint64 u => exact (h5 u rfl).elim
    | binary v => exact (h6 v rfl).elim
    | null => simp [write_offset_node] at hw
    | string s => simp [write_offset_node] at hw
    | bool b => simp [write_offset_node] at hw
    | int i => simp [write_offset_node] at hw
    | float bits en => simp [write_offset_node] at hw
    | uint u => simp [write_offset_node] at hw
  -- array loop: nil
  · intro st out slots evs hw hpos hsort hsub
    simp only [arrayChildLoop, Except.ok.injEq, Prod.mk.injEq] at hw
    obtain ⟨⟨hout, _⟩, hevs⟩ := hw
    subst hevs
    exact ⟨rfl, hout ▸ hpos⟩
  -- array loop: inline child, rest fails
  · intro st x xs hval err hrest ih out slots evs hw hpos hsort hsub
    simp only [arrayChildLoop, hval, if_true] at hw
    rw [hrest] at hw
    simp at hw
  -- array loop: inline child, rest succeeds
  · intro st x xs hval st2 slots0 evs0 hrest ih out slots evs hw hpos hsort hsub
    simp only [arrayChildLoop, hval, if_true] at hw
    rw [hrest] at hw
    simp only [Except.ok.injEq, Prod.mk.injEq] at hw
    obtain ⟨⟨hout, _⟩, hevs⟩ := hw
    subst hevs
    simp only [hashesSortedList, Bool.and_eq_true] at hsort
    simp only [keysSubList, Bool.and_eq_true] at hsub
    have := ih st2 slots0 evs0 hrest hpos hsort.2 hsub.2
    exact ⟨this.1, hout ▸ this.2⟩
  -- array loop: memo hit, rest fails
  · intro st x xs hval off hmg err hrest ih out slots evs hw hpos hsort hsub
    have hval' : (x.is_value || x.is_string) = false := by
      revert hval; cases x.is_value || x.is_string <;> simp
    simp only [arrayChildLoop, hval', Bool.false_eq_true, if_false] at hw
    rw [hmg] at hw
    simp only [] at hw
    rw [hrest] at hw
    simp at hw
  -- array loop: memo hit, rest succeeds
  · intro st x xs hval off hmg st2 slots0 evs0 hrest ih out slots evs hw hpos hsort hsub
    have hval' : (x.is_value || x.is_string) = false := by
      revert hval; cases x.is_value || x.is_string <;> simp
    simp only [arrayChildLoop, hval', Bool.false_eq_true, if_false] at hw
    rw [hmg] at hw
    simp only [] at hw
    rw [hrest] at hw
    simp only [Except.ok.injEq, Prod.mk.injEq] at hw
    obtain ⟨⟨hout, _⟩, hevs⟩ := hw
    subst hevs
    simp only [hashesSortedList, Bool.and_eq_true] at hsort
    simp only [keysSubList, Bool.and_eq_true] at hsub
    have := ih st2 slots0 evs0 hrest hpos hsort.2 hsub.2
    exact ⟨this.1, hout ▸ this.2⟩
  -- array loop: memo miss, child fails
  · intro st x xs hval hmg err hchild ihx out slots evs hw hpos hsort hsub
    have hval' : (x.is_value || x.is_string) = false := by
      revert hval; cases x.is_value || x.is_string <;> simp
    simp only [arrayChildLoop, hval', Bool.false_eq_true, if_false] at hw
    rw [hmg] at hw
    simp only [] at hw
    rw [hchild] at hw
    simp at hw
  -- array loop: memo miss, child succeeds, rest fails
  · intro st x xs hval hmg st1 evs1 hchild st2 err hrest ihx ihrest out slots evs hw hpos hsort hsub
    have hst2 : st2 = align_cursor st1 := rfl
    rw [hst2] at hrest
    have hval' : (x.is_value || x.is_string) = false := by
      revert hval; cases x.is_value || x.is_string <;> simp
    simp only [arrayChildLoop, hval', Bool.false_eq_true, if_false] at hw
    rw [hmg] at hw
    simp only [] at hw
    rw [hchild] at hw
    simp only [] at hw
    rw [hrest] at hw
    simp at hw
  -- array loop: memo miss, child succeeds, rest succeeds
  · intro st x xs hval hmg st1 evs1 hchild st2 st21 slots0 evs0 hrest ihx ihrest
      out slots evs hw hpos hsort hsub
    have hst2 : st2 = align_cursor st1 := rfl
    rw [hst2] at hrest ihrest
    have hval' : (x.is_value || x.is_string) = false := by
      revert hval; cases x.is_value || x.is_string <;> simp
    simp only [arrayChildLoop, hval', Bool.false_eq_true, if_false] at hw
    rw [hmg] at hw
    simp only [] at hw
    rw [hchild] at hw
    simp only [] at hw
    rw [hrest] at hw
    simp only [Except.ok.injEq, Prod.mk.injEq] at hw
    obtain ⟨⟨hout, _⟩, hevs⟩ := hw
    subst hevs
    simp only [hashesSortedList, Bool.and_eq_true] at hsort
    simp only [keysSubList, Bool.and_eq_true] at hsub
    have hchildres := ihx st1 evs1 hchild hpos hsort.1 hsub.1
    have hrestres := ihrest st21 slots0 evs0 hrest
      (by simp [align_cursor, alignPos_mod]) hsort.2 hsub.2
    constructor
    · simp only [List.all_append, List.all_cons, List.all_nil, Bool.and_eq_true]
      refine ⟨⟨hchildres.1, ?_, trivial⟩, hrestres.1⟩
      simp [evGood, evAligned, evKeysSorted, align_cursor, alignPos_mod]
    · exact hout ▸ hrestres.2
  -- hash loop: nil
  · intro st out slots evs hw hpos hsort hsub
    simp only [hashChildLoop, Except.ok.injEq, Prod.mk.injEq] at hw
    obtain ⟨⟨hout, _⟩, hevs⟩ := hw
    subst hevs
    exact ⟨rfl, hout ▸ hpos⟩
  -- hash loop: inline child, rest fails
  · intro st k x xs hval err hrest ih out slots evs hw hpos hsort hsub
    simp only [hashChildLoop, hval, if_true] at hw
    rw [hrest] at hw
    simp at hw
  -- hash loop: inline child, rest succeeds
  · intro st k x xs hval st2 slots0 evs0 hrest ih out slots evs hw hpos hsort hsub
    simp only [hashChildLoop, hval, if_true] at hw
    rw [hrest] at hw
    simp only [Except.ok.injEq, Prod.mk.injEq] at hw
    obtain ⟨⟨hout, _⟩, hevs⟩ := hw
    subst hevs
    simp only [hashesSortedHash, Bool.and_eq_true] at hsort
    simp only [keysSubHash, Bool.and_eq_true] at hsub
    have := ih st2 slots0 evs0 hrest hpos hsort.2 hsub.2
    exact ⟨this.1, hout ▸ this.2⟩
  -- hash loop: memo hit, rest fails
  · intro st k x xs hval off hmg err hrest ih out slots evs hw hpos hsort hsub
    have hval' : (x.is_value || x.is_string) = false := by
      revert hval; cases x.is_value || x.is_string <;> simp
    simp only [hashChildLoop, hval', Bool.false_eq_true, if_false] at hw
    rw [hmg] at hw
    simp only [] at hw
    rw [hrest] at hw
    simp at hw
  -- hash loop: memo hit, rest succeeds
  · intro st k x xs hval off hmg st2 slots0 evs0 hrest ih out slots evs hw hpos hsort hsub
    have hval' : (x.is_value || x.is_string) = false := by
      revert hval; cases x.is_value || x.is_string <;> simp
    simp only [hashChildLoop, hval', Bool.false_eq_true, if_false] at hw
    rw [hmg] at hw
    simp only [] at hw
    rw [hrest] at hw
    simp only [Except.ok.injEq, Prod.mk.injEq] at hw
    obtain ⟨⟨hout, _⟩, hevs⟩ := hw
    subst hevs
    simp only [hashesSortedHash, Bool.and_eq_true] at hsort
    simp only [keysSubHash, Bool.and_eq_true] at hsub
    have := ih st2 slots0 evs0 hrest hpos hsort.2 hsub.2
    exact ⟨this.1, hout ▸ this.2⟩
  -- hash loop: memo miss, child fails
  · intro st k x xs hval hmg err hchild ihx out slots evs hw hpos hsort hsub
    have hval' : (x.is_value || x.is_string) = false := by
      revert hval; cases x.is_value || x.is_string <;> simp
    simp only [hashChildLoop, hval', Bool.false_eq_true, if_false] at hw
    rw [hmg] at hw
    simp only [] at hw
    rw [hchild] at hw
    simp at hw
  -- hash loop: memo miss, child succeeds, rest fails
  · intro st k x xs hval hmg st1 evs1 hchild st2 err hrest ihx ihrest out slots evs hw hpos hsort hsub
    have hst2 : st2 = align_cursor st1 := rfl
    rw [hst2] at hrest
    have hval' : (x.is_value || x.is_string) = false := by
      revert hval; cases x.is_value || x.is_string <;> simp
    simp only [hashChildLoop, hval', Bool.false_eq_true, if_false] at hw
    rw [hmg] at hw
    simp only [] at hw
    rw [hchild] at hw
    simp only [] at hw
    rw [hrest] at hw
    simp at hw
  -- hash loop: memo miss, child succeeds, rest succeeds
  · intro st k x xs hval hmg st1 evs1 hchild st2 st21 slots0 evs0 hrest ihx ihrest
      out slots evs hw hpos hsort hsub
    have hst2 : st2 = align_cursor st1 := rfl
    rw [hst2] at hrest ihrest
    have hval' : (x.is_value || x.is_string) = false := by
      revert hval; cases x.is_value || x.is_string <;> simp
    simp only [hashChildLoop, hval', Bool.false_eq_true, if_false] at hw
    rw [hmg] at hw
    simp only [] at hw
    rw [hchild] at hw
    simp only [] at hw
    rw [hrest] at hw
    simp only [Except.ok.injEq, Prod.mk.injEq] at hw
    obtain ⟨⟨hout, _⟩, hevs⟩ := hw
    subst hevs
    simp only [hashesSortedHash, Bool.and_eq_true] at hsort
    simp only [keysSubHash, Bool.and_eq_true] at hsub
    have hchildres := ihx st1 evs1 hchild hpos hsort.1 hsub.1
    have hrestres := ihrest st21 slots0 evs0 hrest
      (by simp [align_cursor, alignPos_mod]) hsort.2 hsub.2
    constructor
    · simp only [List.all_append, List.all_cons, List.all_nil, Bool.and_eq_true]
      refine ⟨⟨hchildres.1, ?_, trivial⟩, hrestres.1⟩
      simp [evGood, evAligned, evKeysSorted, align_cursor, alignPos_mod]
    · exact hout ▸ hrestres.2

theorem match_tail (r : Except (DocErr × WS) (WS × List WEvent)) (st' : WS)
    (evs : List WEvent)
    (h : (match r with
      | .error err => (.error err : Except (DocErr × WS) (WS × List WEvent))
      | .ok (st1, evs1) => .ok (st1, evs1 ++ [WEvent.bodyEnd st1.pos])) = .ok (st', evs)) :
    ∃ evs1, r = .ok (st', evs1) ∧ evs = evs1 ++ [WEvent.bodyEnd st'.pos] := by
  match r, h with
  | .ok (st1, evs1), h =>
    simp only [Except.ok.injEq, Prod.mk.injEq] at h
    obtain ⟨h1, h2⟩ := h
    subst h1
    exact ⟨evs1, rfl, h2.symm⟩

theorem all_evAligned_of_evGood (evs : List WEvent) (h : evs.all evGood = true) :
    evs.all evAligned = true := by
  simp only [List.all_eq_true, evGood, Bool.and_eq_true] at h ⊢
  exact fun ev hev => (h ev hev).1

theorem all_evKeysSorted_of_evGood (evs : List WEvent) (h : evs.all evGood = true) :
    evs.all evKeysSorted = true := by
  simp only [List.all_eq_true, evGood, Bool.and_eq_true] at h ⊢
  exact fun ev hev => (h ev hev).2

/-- All ghost events of a successful `write_doc` run on a well-formed document
are good, including the final body-end event of the root. -/
theorem write_doc_good (e : En) (version : Nat) (data : Byml) (st : WS)
    (st' : WS) (evs : List WEvent)
    (hsort : hashesSorted data = true)
    (hw : write_doc e version data st = .ok (st', evs)) :
    evs.all evGood = true := by
  have hkeys : (collect_keys data).Sorted (· < ·) :=
    (sorted_collect_keys data).lt_of_le (nodup_collect_keys data)
  have hsub : keysSubB (collect_keys data) data = true :=
    keysSubB_of_allKeys _ data (fun x hx => (mem_collect_keys data x).2 hx)
  unfold write_doc at hw
  by_cases hc : data.is_container = false
  · rw [if_pos hc] at hw
    exact Except.noConfusion hw
  · rw [if_neg hc] at hw
    have hc' : data.is_container = true := by
      revert hc; cases data.is_container <;> simp
    by_cases hk : (collect_keys data).isEmpty <;>
      by_cases hs : (collect_strings data).isEmpty <;>
        simp only [hk, hs, Bool.false_eq_true, if_true, if_false] at hw <;>
        · obtain ⟨evs1, hroot, hevs⟩ := match_tail _ _ _ hw
          subst hevs
          have hgood := write_offset_node_good e (collect_keys data)
            (collect_strings data) hkeys _ data st' evs1 hroot
            (by simp [align_cursor, alignPos_mod]) hsort hsub
          simp only [List.all_append, List.all_cons, List.all_nil, Bool.and_eq_true]
          refine ⟨hgood.1, ?_, trivial⟩
          simp [evGood, evAligned, evKeysSorted, hgood.2 hc']

theorem write_binary_good (t : Byml) (e : En) (v : Nat) (st st' : WS)
    (evs : List WEvent) (hsort : hashesSorted t = true)
    (hw : write_binary t e v st = .ok (st', evs)) :
    evs.all evGood = true := by
  unfold write_binary at hw
  split at hw
  · exact Except.noConfusion hw
  · split at hw
    any_goals exact Except.noConfusion hw
    all_goals
      split at hw
      · exact Except.noConfusion hw
      · next r heq =>
          simp only [Except.ok.injEq] at hw
          subst hw
          exact write_doc_good _ _ _ _ _ _ hsort heq

/-- C3: in every successful `to_binary`/`write_binary` run on a well-formed
document (`hashesSorted` is the `BTreeMap` representation invariant every
Rust value satisfies), every offset-node body starts at an offset that is a
multiple of 4, and after every offset-node body the cursor sits at a multiple
of 4 again (the recorded body-end positions, taken after the writer's
realignment). -/
theorem offset_bodies_aligned (t : Byml) (e : En) (v : Nat) (st st' : WS)
    (evs : List WEvent) (hsort : hashesSorted t = true)
    (hw : write_binary t e v st = .ok (st', evs)) :
    evs.all evAligned = true :=
  all_evAligned_of_evGood evs (write_binary_good t e v st st' evs hsort hw)

/-- C4: in every successful `write_binary` run on a well-formed document, the
`key_idx` sequence of every emitted Hash body is strictly increasing. -/
theorem hash_bodies_key_sorted (t : Byml) (e : En) (v : Nat) (st st' : WS)
    (evs : List WEvent) (hsort : hashesSorted t = true)
    (hw : write_binary t e v st = .ok (st', evs)) :
    evs.all evKeysSorted = true :=
  all_evKeysSorted_of_evGood evs (write_binary_good t e v st st' evs hsort hw)

/-- Witness for `offset_bodies_aligned` on `alignDoc`. -/
theorem offset_bodies_aligned_witness : (alignDocOut.2).all evAligned = true :=
  offset_bodies_aligned alignDoc .little 2 ws0 alignDocOut.1 alignDocOut.2
    (by decide) rfl

/-- Witness for `hash_bodies_key_sorted` on `keyOrderDoc`. -/
theorem hash_bodies_key_sorted_witness : (keyOrderDocOut.2).all evKeysSorted = true :=
  hash_bodies_key_sorted keyOrderDoc .big 3 ws0 keyOrderDocOut.1 keyOrderDocOut.2
    (by decide) rfl

theorem floatInto_eq (bits : Nat) (e : En) (h : bits < 2 ^ 32) : floatInto bits e = bits := by
  cases e <;>
    · simp only [floatInto, toBeBytes32, fromBeBytes32, toLeBytes32, fromLeBytes32]
      omega

theorem doubleInto_eq (bits : Nat) (e : En) (h : bits < 2 ^ 64) : doubleInto bits e = bits := by
  cases e <;>
    · simp only [doubleInto, toBeBytes64, fromBeBytes64, toLeBytes64, fromLeBytes64]
      omega

/-- C5: two `Float` nodes are `==`-equal exactly when their payloads decode to
IEEE-equal 32-bit values, independently of the stored endian tags (the byte
round-trip of `Into<f32>` preserves the bits, so the tag never matters); the
same holds for `Double` with 64-bit values, and Array/Hash/Binary nodes
compare structurally element by element. -/
theorem value_equality_semantics :
    (∀ a b ea eb, a < 2 ^ 32 → b < 2 ^ 32 →
      bymlEq (Byml.float a ea) (Byml.float b eb) = f32IeeeEq a b)
    ∧ (∀ a b ea eb, a < 2 ^ 64 → b < 2 ^ 64 →
      bymlEq (Byml.double a ea) (Byml.double b eb) = f64IeeeEq a b)
    ∧ (∀ xs ys, bymlEq (Byml.array xs) (Byml.array ys) = bymlListEq xs ys)
    ∧ (∀ m1 m2, bymlEq (Byml.hash m1) (Byml.hash m2) = bymlHashEq m1 m2)
    ∧ (∀ v1 v2, bymlEq (Byml.binary v1) (Byml.binary v2) = (v1 == v2)) := by
  refine ⟨?_, ?_, fun _ _ => rfl, fun _ _ => rfl, fun _ _ => rfl⟩
  · intro a b ea eb ha hb
    simp [bymlEq, floatInto_eq a ea ha, floatInto_eq b eb hb]
  · intro a b ea eb ha hb
    simp [bymlEq, doubleInto_eq a ea ha, doubleInto_eq b eb hb]

/-- Witness for `value_equality_semantics`: 1.0f32 stored under the two
endian tags compares equal. -/
theorem value_equality_semantics_witness :
    bymlEq (Byml.float 0x3F800000 En.big) (Byml.float 0x3F800000 En.little)
      = f32IeeeEq 0x3F800000 0x3F800000 :=
  value_equality_semantics.1 0x3F800000 0x3F800000 En.big En.little
    (by decide) (by decide)

/-- C10: `==` on the document model is not reflexive — any Float or Double
node whose payload decodes to a NaN differs from itself — so the equality is
not an equivalence relation even though the Rust type derives `Eq`. -/
theorem equality_not_reflexive :
    (∀ bits e, bits < 2 ^ 32 → f32IsNaN bits = true →
      bymlEq (Byml.float bits e) (Byml.float bits e) = false)
    ∧ (∀ bits e, bits < 2 ^ 64 → f64IsNaN bits = true →
      bymlEq (Byml.double bits e) (Byml.double bits e) = false)
    ∧ ¬(∀ t : Byml, bymlEq t t = true) := by
  refine ⟨?_, ?_, ?_⟩
  · intro bits e h hnan
    simp [bymlEq, floatInto_eq bits e h, f32IeeeEq, hnan]
  · intro bits e h hnan
    simp [bymlEq, doubleInto_eq bits e h, f64IeeeEq, hnan]
  · intro h
    exact absurd (h (Byml.float 0x7FC00000 En.big)) (by decide)

/-- Witness for `equality_not_reflexive`: the quiet-NaN pattern 0x7FC00000. -/
theorem equality_not_reflexive_witness :
    bymlEq (Byml.float 0x7FC00000 En.big) (Byml.float 0x7FC00000 En.big) = false :=
  equality_not_reflexive.1 0x7FC00000 En.big (by decide) (by decide)

/-- C2 counterexample: the memoisation key does **not** coincide with §4.1
value equality in either direction.  A Hash subtree holding a NaN float maps
to the same key as itself (any deterministic hasher sends the identical hash
input to the identical `u64`) yet is not `==`-equal to itself; conversely,
two `==`-equal Hash subtrees whose floats differ only in the stored endian
tag feed different streams to the hasher and so get different keys. -/
theorem dedup_key_vs_value_equality :
    (calculate_hash (Byml.hash [("k", Byml.float 0x7FC00000 En.big)])
        = calculate_hash (Byml.hash [("k", Byml.float 0x7FC00000 En.big)])
      ∧ bymlEq (Byml.hash [("k", Byml.float 0x7FC00000 En.big)])
          (Byml.hash [("k", Byml.float 0x7FC00000 En.big)]) = false)
    ∧ (bymlEq (Byml.hash [("k", Byml.float 0x3F800000 En.big)])
          (Byml.hash [("k", Byml.float 0x3F800000 En.little)]) = true
      ∧ calculate_hash (Byml.hash [("k", Byml.float 0x3F800000 En.big)])
          ≠ calculate_hash (Byml.hash [("k", Byml.float 0x3F800000 En.little)])) :=
  ⟨⟨rfl, by decide⟩, by decide, by decide⟩

theorem charToNat_injective : Function.Injective Char.toNat := by
  intro a b h
  exact Char.eq_of_val_eq (UInt32.toNat.inj h)

theorem strTrace_append_inj {a b : String} {s s' : List Nat}
    (h : strTrace a ++ s = strTrace b ++ s') : a = b ∧ s = s' := by
  unfold strTrace at h
  simp only [List.cons_append, List.cons.injEq] at h
  obtain ⟨hlen, htail⟩ := h
  obtain ⟨hmap, hs⟩ := List.append_inj htail hlen
  refine ⟨?_, hs⟩
  have hdata : a.data = b.data := List.map_injective_iff.mpr charToNat_injective hmap
  cases a
  cases b
  exact congrArg String.mk hdata

theorem intTrace_append_inj {i j : Int} {s s' : List Nat}
    (h : intTrace i ++ s = intTrace j ++ s') : i = j ∧ s = s' := by
  unfold intTrace at h
  simp only [List.cons_append, List.nil_append, List.cons.injEq] at h
  obtain ⟨h1, h2, h3⟩ := h
  refine ⟨?_, h3⟩
  by_cases hi : i < 0 <;> by_cases hj : j < 0
  · omega
  · rw [if_pos hi, if_neg hj] at h1
    exact absurd h1 (by decide)
  · rw [if_neg hi, if_pos hj] at h1
    exact absurd h1 (by decide)
  · omega

theorem enTag_inj {e e' : En} (h : enTag e = enTag e') : e = e' := by
  cases e <;> cases e' <;> first | rfl | exact absurd h (by decide)

/-- Prefix-decodability of the hash-input stream: the stream of a node,
followed by anything, determines the node and the remainder. -/
theorem calculate_hash_append_inj :
    ∀ t : Byml, ∀ u s s', calculate_hash t ++ s = calculate_hash u ++ s' →
      t = u ∧ s = s' := by
  apply calculate_hash.induct
    (motive_1 := fun t => ∀ u s s',
      calculate_hash t ++ s = calculate_hash u ++ s' → t = u ∧ s = s')
    (motive_2 := fun m => ∀ m' s s', m.length = m'.length →
      hashEntryTrace m ++ s = hashEntryTrace m' ++ s' → m = m' ∧ s = s')
    (motive_3 := fun l => ∀ l' s s', l.length = l'.length →
      listTrace l ++ s = listTrace l' ++ s' → l = l' ∧ s = s')
  -- null
  · intro u s s' h
    cases u <;> simp [calculate_hash] at h
    exact ⟨rfl, h⟩
  -- string
  · intro a u s s' h
    cases u <;> simp [calculate_hash] at h
    obtain ⟨hab, hs⟩ := strTrace_append_inj h
    exact ⟨by rw [hab], hs⟩
  -- binary
  · intro b u s s' h
    cases u <;> simp [calculate_hash] at h
    obtain ⟨hlen, htail⟩ := h
    obtain ⟨hb, hs⟩ := List.append_inj htail hlen
    exact ⟨by rw [hb], hs⟩
  -- array
  · intro xs ih u s s' h
    cases u <;> simp [calculate_hash] at h
    obtain ⟨hlen, htail⟩ := h
    obtain ⟨hxs, hs⟩ := ih _ _ _ hlen htail
    exact ⟨by rw [hxs], hs⟩
  -- hash
  · intro m ih u s s' h
    cases u <;> simp [calculate_hash] at h
    obtain ⟨hlen, htail⟩ := h
    obtain ⟨hm, hs⟩ := ih _ _ _ hlen htail
    exact ⟨by rw [hm], hs⟩
  -- bool
  · intro b u s s' h
    cases u <;> simp [calculate_hash] at h
    obtain ⟨hb, hs⟩ := h
    rename_i b'
    cases b <;> cases b' <;> simp_all
  -- int
  · intro i u s s' h
    cases u <;> simp [calculate_hash] at h
    obtain ⟨hij, hs⟩ := intTrace_append_inj h
    exact ⟨by rw [hij], hs⟩
  -- float
  · intro bits e u s s' h
    cases u <;> simp [calculate_hash] at h
    obtain ⟨hb, he, hs⟩ := h
    exact ⟨by rw [hb, enTag_inj he], hs⟩
  -- uint
  · intro n u s s' h
    cases u <;> simp [calculate_hash] at h
    obtain ⟨hn, hs⟩ := h
    exact ⟨by rw [hn], hs⟩
  -- int64
  · intro i u s s' h
    cases u <;> simp [calculate_hash] at h
    obtain ⟨hij, hs⟩ := intTrace_append_inj h
    exact ⟨by rw [hij], hs⟩
  -- uint64
  · intro n u s s' h
    cases u <;> simp [calculate_hash] at h
    obtain ⟨hn, hs⟩ := h
    exact ⟨by rw [hn], hs⟩
  -- double
  · intro bits e u s s' h
    cases u <;> simp [calculate_hash] at h
    obtain ⟨hb, he, hs⟩ := h
    exact ⟨by rw [hb, enTag_inj he], hs⟩
  -- listTrace nil
  · intro l' s s' hlen h
    cases l' with
    | nil => exact ⟨rfl, by simpa [listTrace] using h⟩
    | cons y ys => simp at hlen
  -- listTrace cons
  · intro x xs ihx ihxs l' s s' hlen h
    cases l' with
    | nil => simp at hlen
    | cons y ys =>
        simp only [listTrace, List.append_assoc] at h
        obtain ⟨hxy, htail⟩ := ihx y _ _ h
        obtain ⟨hxs, hs⟩ := ihxs ys _ _ (by simpa using hlen) htail
        exact ⟨by rw [hxy, hxs], hs⟩
  -- hashEntryTrace nil
  · intro m' s s' hlen h
    cases m' with
    | nil => exact ⟨rfl, by simpa [hashEntryTrace] using h⟩
    | cons p r' => simp at hlen
  -- hashEntryTrace cons
  · intro k v r ihv ihr m' s s' hlen h
    cases m' with
    | nil => simp at hlen
    | cons p r' =>
        obtain ⟨k', v'⟩ := p
        simp only [hashEntryTrace, List.append_assoc] at h
        obtain ⟨hk, htail⟩ := strTrace_append_inj h
        obtain ⟨hv, htail2⟩ := ihv v' _ _ htail
        obtain ⟨hr, hs⟩ := ihr r' _ _ (by simpa using hlen) htail2
        exact ⟨by rw [hk, hv, hr], hs⟩

/-- C2 amended: two subtrees are mapped to the same memoisation key exactly
when they are structurally identical — same variants, payload bits, endian
tags and keys throughout (the data the derived `Hash` feeds the hasher) —
rather than when they are equal under the §4.1 value equality. -/
theorem calculate_hash_eq_iff (t u : Byml) :
    calculate_hash t = calculate_hash u ↔ t = u :=
  ⟨fun h => (calculate_hash_append_inj t u [] [] (by simp [h])).1,
    fun h => by rw [h]⟩

/-- C9 (code bug): parsing the text mapping `0: 1` panics instead of
stringifying the integer key.  The untagged key scalar `"0"` parses as
`i32`, so `insert_new_node` receives `Byml::Int(0)` as the key and
`as_string().unwrap()` panics — for any behaviour of the collaborator
tag/f32 parsers, since they are never consulted. -/
theorem integer_key_panics (tagged : String → String → String → Byml)
    (pf32 : String → Option (Nat × En)) :
    runEvents tagged pf32 ⟨[], [], []⟩ intKeyEvents = .error .panicked := rfl
